import Mathlib

/-!
# Verification of the SQL evaluation core
# (src/Evaluation/evaluation_category_matching_accuracy.py)

Shallow embedding of the three core components of the repository:

* `tokenize_sql` — the tokenizer (`re.findall(r'\w+|[^\w\s]', sql)` followed by
  per-token lower-casing, with null inputs mapped to the empty list);
* `compare_components` — the matcher (per-reference-token membership test in the
  set of generated tokens, percentage with a guarded division, presence map kept
  as an insertion-ordered dictionary);
* `evaluate_sql_row` — the body of the per-row loop of `evaluate_sql`, including
  the reference-token decoding step (which in the source runs before the loop)
  and the null-generated-query fallback;
* `categorize_query` — the complexity classifier (weighted case-insensitive
  word-boundary pattern counts with fixed tier thresholds).

Strings are modelled as Lean `String`/`List Char`; Python's regex character
class `\w` is modelled as ASCII alphanumeric or underscore ( the queries the
program handles are ASCII SQL), `\s`/`str.split()` whitespace as
`Char.isWhitespace`, and `str.lower` as `Char.toLower` per character.
Percentages are modelled as exact rationals (the spec's data model calls the
match percentage a real number in [0,100]).
-/

namespace NLQEval

/-- `\w` of the Python regexes: a word character (ASCII alphanumeric or underscore). -/
def isWordChar (c : Char) : Bool := c.isAlphanum || c = '_'

/-- Python `str.lower` applied to one token (per-character lower-casing). -/
def lowerStr (s : String) : String := ⟨s.data.map Char.toLower⟩

/-! ## Tokenizer: `tokenize_sql` -/

/-- Close the current word run (held reversed in `acc`): emit it if non-empty. -/
def flushWord (acc : List Char) : List (List Char) :=
  if acc.isEmpty then [] else [acc.reverse]

/-- `re.findall(r'\w+|[^\w\s]', s)`: scan left to right, emitting one token per
maximal run of word characters (`\w+`, greedy) and one single-character token
per non-word non-whitespace character; whitespace only separates. `acc` is the
current (reversed) run of word characters. -/
def findTokens : List Char → List Char → List (List Char)
  | acc, [] => flushWord acc
  | acc, c :: rest =>
    if isWordChar c then findTokens (c :: acc) rest
    else flushWord acc ++ (if c.isWhitespace then [] else [[c]]) ++ findTokens [] rest

/-- `tokenize_sql(sql)`: `[]` for a null input (`pd.isna`), otherwise the regex
tokens of the string, each lower-cased. -/
def tokenize_sql (sql : Option String) : List String :=
  match sql with
  | none => []
  | some s => (findTokens [] s.data).map (fun t => ⟨t.map Char.toLower⟩)

/-! ## Matcher: `compare_components` -/

/-- `results[token] = presence` on a Python dict modelled as an
insertion-ordered association list: overwrite in place if the key is present,
otherwise append. -/
def dictInsert (m : List (String × Bool)) (k : String) (v : Bool) : List (String × Bool) :=
  if m.any (fun p => p.1 == k) then m.map (fun p => if p.1 == k then (k, v) else p)
  else m ++ [(k, v)]

/-- The `for token in ref_tokens` loop of `compare_components`: build the
presence map and count the matched tokens. `genHas` is membership in
`set(gen_tokens)`. -/
def compareAux (genHas : String → Bool) :
    List String → List (String × Bool) → Nat → List (String × Bool) × Nat
  | [], results, matched => (results, matched)
  | t :: rest, results, matched =>
    let presence := genHas t
    compareAux genHas rest (dictInsert results t presence)
      (if presence then matched + 1 else matched)

/-- `compare_components(ref_tokens, gen_tokens)`: the match percentage
(`matched / len(ref_tokens) * 100`, defined as 0 for an empty reference) and
the presence map. Membership in `set(gen_tokens)` coincides with membership in
the list `gen_tokens`. -/
def compare_components (ref_tokens gen_tokens : List String) : ℚ × List (String × Bool) :=
  let p := compareAux (fun t => gen_tokens.contains t) ref_tokens [] 0
  let total := ref_tokens.length
  (if 0 < total then (p.2 : ℚ) / (total : ℚ) * 100 else 0, p.1)

/-! ## Row evaluation: the loop body of `evaluate_sql` -/

/-- The per-row `query_toks` cell: either a serialized string (to be decoded by
`ast.literal_eval`) or an already-decoded list of tokens. -/
inductive TokField where
  | str (s : String)
  | toks (l : List String)
deriving DecidableEq

/-- The per-row input fields `evaluate_sql` consumes. -/
structure Row where
  generated_query : Option String
  query_toks : TokField
deriving DecidableEq

/-- The per-row outputs appended by the `evaluate_sql` loop. -/
structure RowResult where
  match_percentage : ℚ
  match_details : List (String × Bool)
  exact_match : Nat
deriving DecidableEq

/-- The error raised when `ast.literal_eval` cannot decode a serialized
`query_toks` string. -/
inductive EvalError where
  | decodeError
deriving DecidableEq

/-- The `reference_tokens` column:
`[token.lower() for token in (ast.literal_eval(x) if isinstance(x, str) else x)]`.
`decode` abstracts `ast.literal_eval` restricted to list-of-string literals
(an external library function, not code of this repository): it returns `none`
exactly when `ast.literal_eval` would raise on that string. -/
def resolve_reference (decode : String → Option (List String)) :
    TokField → Option (List String)
  | .str s => (decode s).map (fun l => l.map lowerStr)
  | .toks l => some (l.map lowerStr)

/-- One row of `evaluate_sql`. The source computes the `reference_tokens`
column (raising on a decoding failure) before entering the row loop, so the
decode step precedes the null-generated-query check; a null `generated_query`
then yields the fallback `(0, {}, 0)` without calling the matcher, and
otherwise `exact_match = 1 if all(details.values()) else 0`. -/
def evaluate_sql_row (decode : String → Option (List String)) (row : Row) :
    Except EvalError RowResult :=
  let gen_tokens := tokenize_sql row.generated_query
  match resolve_reference decode row.query_toks with
  | none => .error .decodeError
  | some ref_tokens =>
    match row.generated_query with
    | none => .ok ⟨0, [], 0⟩
    | some _ =>
      let r := compare_components ref_tokens gen_tokens
      .ok ⟨r.1, r.2, if r.2.all (fun p => p.2) then 1 else 0⟩

/-! ## Complexity classifier: `categorize_query`

Every pattern of the classifier is a word or phrase wrapped in `\b…\b`, so an
occurrence is a literal occurrence of the keyword whose neighbouring characters
(if any) are non-word characters.  None of these patterns can overlap itself
(no proper prefix of any of them is also a suffix once the boundary conditions
are imposed), and an alternation such as `\b(avg|count|…)\b` matches exactly
the maximal word runs equal to one of its branches, so `len(re.findall(...))`
equals the number of bounded occurrence positions, counted keyword by keyword. -/

/-- The first character of the list is absent or a non-word character — the
`\b` condition looking right, and also the condition under which appending the
list to some text cannot destroy a word boundary at the junction. -/
def headNonWord : List Char → Bool
  | [] => true
  | c :: _ => !isWordChar c

/-- The character on the left is absent or a non-word character — the `\b`
condition looking left. -/
def prevOk : Option Char → Bool
  | none => true
  | some c => !isWordChar c

/-- Does the pattern `p` occur at the head of `s`, with `\b` satisfied on both
sides?  `prev` is the character just before `s` (`none` at the start of the
text).  All classifier patterns begin and end with a word character, so the
boundary holds iff the neighbouring character is absent or a non-word one. -/
def boundedAt (p : List Char) (prev : Option Char) (s : List Char) : Bool :=
  p.isPrefixOf s && prevOk prev && headNonWord (s.drop p.length)

/-- Number of positions of `s` at which `p` occurs with word boundaries;
`len(re.findall(r'\b…\b', s))` for a non-self-overlapping pattern. -/
def countBounded (p : List Char) : Option Char → List Char → Nat
  | _, [] => 0
  | prev, c :: rest => (if boundedAt p prev (c :: rest) then 1 else 0) + countBounded p (some c) rest

/-- `len(re.findall(r'\bkw\b', s))` from the start of the text. -/
def countKeyword (kw : String) (s : List Char) : Nat := countBounded kw.data none s

/-- First bounded occurrence of `p` in `s`: returns the suffix just after it
together with the new previous character (the last character of `p`). -/
def findBounded (p : List Char) : Option Char → List Char → Option (Option Char × List Char)
  | _, [] => none
  | prev, c :: rest =>
    if boundedAt p prev (c :: rest) then some (some (p.getLastD c), (c :: rest).drop p.length)
    else findBounded p (some c) rest

/-- Successive bounded occurrences of the given keywords, each strictly after
the previous one. -/
def chainFind (kws : List String) (prev : Option Char) (s : List Char) : Bool :=
  match kws with
  | [] => true
  | kw :: rest =>
    match findBounded kw.data prev s with
    | none => false
    | some (pv, r) => chainFind rest pv r

/-- One line contains the subquery pattern
`\bselect\b.*\bfrom\b.*\bwhere\b.*\b(select\b.*\bfrom\b)` iff it contains
bounded occurrences of select, from, where, select, from in this order
(greedy `.*` gaps are arbitrary and `.` cannot cross a newline). -/
def hasSubqueryPattern (line : List Char) : Bool :=
  chainFind ["select", "from", "where", "select", "from"] none line

/-- Split on `'\n'` — the boundaries that `.` in the subquery regex cannot
cross.  Always returns at least one (possibly empty) line. -/
def splitLines : List Char → List (List Char)
  | [] => [[]]
  | c :: rest =>
    if c = '\n' then [] :: splitLines rest
    else
      match splitLines rest with
      | [] => [[c]]
      | l :: ls => (c :: l) :: ls

/-- `len(re.findall(r'\bselect\b.*\bfrom\b.*\bwhere\b.*\b(select\b.*\bfrom\b)', s))`:
a match never crosses a newline, and within one line the greedy `.*` of the
leftmost match extends it past any material that could start a second match,
so the count is the number of lines containing the keyword chain. -/
def subqueryCount (s : List Char) : Nat :=
  ((splitLines s).filter hasSubqueryPattern).length

/-- `len(query_lower.split())`: number of maximal runs of non-whitespace
characters.  `prev` is the previous character (`none` at the start). -/
def countWords : Option Char → List Char → Nat
  | _, [] => 0
  | prev, c :: rest =>
    (if !c.isWhitespace && (match prev with | none => true | some p => p.isWhitespace) then 1
     else 0) + countWords (some c) rest

/-- The aggregate functions of `\b(avg|count|min|max|sum|variance|stddev)\b`. -/
def aggregateKeywords : List String :=
  ["avg", "count", "min", "max", "sum", "variance", "stddev"]

/-- The advanced functions of `\b(case|cast|coalesce|decode|rank|dense_rank|row_number|ntile)\b`. -/
def advancedKeywords : List String :=
  ["case", "cast", "coalesce", "decode", "rank", "dense_rank", "row_number", "ntile"]

/-- The `complexity_score` accumulator of `categorize_query`, computed over the
lower-cased query text. -/
def complexity_score (query : String) : Nat :=
  let q := query.data.map Char.toLower
  countKeyword "join" q * 2
    + countKeyword "where" q
    + countKeyword "group by" q
    + countKeyword "order by" q
    + countKeyword "having" q
    + countKeyword "union" q * 2
    + countKeyword "intersect" q * 2
    + countKeyword "except" q * 2
    + countKeyword "distinct" q
    + (aggregateKeywords.map (fun kw => countKeyword kw q)).sum
    + subqueryCount q * 3
    + (advancedKeywords.map (fun kw => countKeyword kw q)).sum
    + countWords none q / 50
    + (countKeyword "and" q + countKeyword "or" q)

/-- The three hardness tiers. -/
inductive Tier where
  | Easy
  | Medium
  | Hard
deriving DecidableEq

/-- `categorize_query(query)`: fixed thresholds on the complexity score. -/
def categorize_query (query : String) : Tier :=
  if complexity_score query ≤ 3 then .Easy
  else if complexity_score query ≤ 7 then .Medium
  else .Hard

/-- Numeric rank of a tier (Easy < Medium < Hard), used to state that the tier
never decreases. -/
def tierVal : Tier → Nat
  | .Easy => 0
  | .Medium => 1
  | .Hard => 2

/-! ## Character-level facts -/

theorem char_eq_iff_toNat {c d : Char} : c = d ↔ c.toNat = d.toNat :=
  ⟨fun h => h ▸ rfl, fun h => Char.eq_of_val_eq (UInt32.ext h)⟩

theorem isUpper_iff (c : Char) : c.isUpper = true ↔ 65 ≤ c.toNat ∧ c.toNat ≤ 90 := by
  simp [Char.isUpper, Char.toNat, UInt32.le_def, BitVec.le_def, UInt32.toNat]

theorem isWhitespace_iff (c : Char) :
    c.isWhitespace = true ↔ c.toNat = 32 ∨ c.toNat = 9 ∨ c.toNat = 13 ∨ c.toNat = 10 := by
  simp only [Char.isWhitespace, Bool.or_eq_true, decide_eq_true_eq, char_eq_iff_toNat]
  tauto

theorem isWordChar_iff (c : Char) :
    isWordChar c = true ↔
      (48 ≤ c.toNat ∧ c.toNat ≤ 57) ∨ (65 ≤ c.toNat ∧ c.toNat ≤ 90) ∨
        (97 ≤ c.toNat ∧ c.toNat ≤ 122) ∨ c.toNat = 95 := by
  simp only [isWordChar, Char.isAlphanum, Char.isAlpha, Char.isUpper, Char.isLower,
    Char.isDigit, Bool.or_eq_true, Bool.and_eq_true, decide_eq_true_eq, Char.toNat,
    UInt32.le_def, BitVec.le_def, UInt32.toNat, char_eq_iff_toNat]
  norm_num
  tauto

theorem toNat_toLower (c : Char) :
    (Char.toLower c).toNat = if 65 ≤ c.toNat ∧ c.toNat ≤ 90 then c.toNat + 32 else c.toNat := by
  rw [Char.toLower]
  split
  · rename_i h
    have hv : (Char.toNat c + 32).isValidChar := Or.inl (by omega)
    rw [Char.ofNat]
    split
    · rfl
    · exact absurd hv (by assumption)
  · rfl

/-- Lower-casing never produces an upper-case character. -/
theorem isUpper_toLower (c : Char) : (Char.toLower c).isUpper = false := by
  rw [← Bool.not_eq_true, isUpper_iff, toNat_toLower]
  split <;> omega

/-- Lower-casing a non-word character (not a letter) leaves it unchanged. -/
theorem toLower_eq_of_not_word {c : Char} (h : isWordChar c = false) : Char.toLower c = c := by
  rw [char_eq_iff_toNat, toNat_toLower]
  rw [← Bool.not_eq_true, isWordChar_iff] at h
  rw [if_neg (by omega)]

/-- Lower-casing preserves word-character status. -/
theorem isWordChar_toLower (c : Char) : isWordChar (Char.toLower c) = isWordChar c := by
  rcases h : isWordChar c with _ | _
  · rw [toLower_eq_of_not_word h, h]
  · rw [isWordChar_iff] at h ⊢
    rw [toNat_toLower]
    split <;> omega

/-- A word character is not whitespace. -/
theorem not_whitespace_of_word {c : Char} (h : isWordChar c = true) : c.isWhitespace = false := by
  rw [← Bool.not_eq_true, isWhitespace_iff]
  rw [isWordChar_iff] at h
  omega

/-- Lower-casing preserves non-whitespace status. -/
theorem isWhitespace_toLower (c : Char) : (Char.toLower c).isWhitespace = c.isWhitespace := by
  rcases h : c.isWhitespace with _ | _
  · rw [← Bool.not_eq_true, isWhitespace_iff, toNat_toLower]
    rw [← Bool.not_eq_true, isWhitespace_iff] at h
    split <;> omega
  · rw [isWhitespace_iff] at h
    have : Char.toLower c = c := by
      rw [char_eq_iff_toNat, toNat_toLower, if_neg (by omega)]
    rw [this, isWhitespace_iff]
    omega

/-! ## Tokenizer lemmas (C2) -/

/-- Shape of a raw token of `findTokens`: a non-empty run of word characters,
or a single non-word non-whitespace character. -/
def TokenShape (t : List Char) : Prop :=
  t ≠ [] ∧ ((∀ c ∈ t, isWordChar c = true) ∨
    ∃ c, t = [c] ∧ isWordChar c = false ∧ c.isWhitespace = false)

theorem flushWord_shape {acc : List Char} (hacc : ∀ c ∈ acc, isWordChar c = true) :
    ∀ t ∈ flushWord acc, TokenShape t := by
  intro t ht
  rw [flushWord] at ht
  split at ht
  · simp at ht
  · rename_i h
    simp only [List.mem_singleton] at ht
    subst ht
    refine ⟨by simpa using h, Or.inl ?_⟩
    intro c hc
    exact hacc c (List.mem_reverse.mp hc)

theorem findTokens_shape :
    ∀ (l acc : List Char), (∀ c ∈ acc, isWordChar c = true) →
      ∀ t ∈ findTokens acc l, TokenShape t := by
  intro l
  induction l with
  | nil => intro acc hacc t ht; exact flushWord_shape hacc t ht
  | cons c rest ih =>
    intro acc hacc t ht
    rw [findTokens] at ht
    split at ht
    · rename_i hw
      refine ih (c :: acc) ?_ t ht
      intro d hd
      rcases List.mem_cons.mp hd with h | h
      · exact h ▸ hw
      · exact hacc d h
    · rename_i hw
      rcases List.mem_append.mp ht with h | h
      · rcases List.mem_append.mp h with h' | h'
        · exact flushWord_shape hacc t h'
        · split at h'
          · simp at h'
          · simp only [List.mem_singleton] at h'
            subst h'
            exact ⟨by simp, Or.inr ⟨c, rfl, by simpa using hw, by rename_i hs; simpa using hs⟩⟩
      · exact ih [] (by simp) t h

/-- C2: for every string input, tokenize scans left to right and emits one
token per maximal run of word characters or per individual non-word
non-whitespace character, no token for whitespace, every emitted token
lower-cased; in particular the concrete scenario with the multi-character
operator `>=` split into two single-character tokens. -/
theorem tokenize_sql_spec :
    tokenize_sql (some "SELECT a FROM t WHERE a>=1") =
      ["select", "a", "from", "t", "where", "a", ">", "=", "1"]
    ∧ ∀ (s : String), ∀ tok ∈ tokenize_sql (some s),
        tok.data ≠ []
        ∧ (∀ c ∈ tok.data, c.isUpper = false)
        ∧ (∀ c ∈ tok.data, c.isWhitespace = false)
        ∧ ((∀ c ∈ tok.data, isWordChar c = true) ∨
            ∃ c, tok.data = [c] ∧ isWordChar c = false) := by
  constructor
  · decide
  · intro s tok htok
    rw [tokenize_sql] at htok
    obtain ⟨raw, hraw, rfl⟩ := List.mem_map.mp htok
    obtain ⟨hne, hshape⟩ := findTokens_shape s.data [] (by simp) raw hraw
    have hdata : (⟨raw.map Char.toLower⟩ : String).data = raw.map Char.toLower := rfl
    have hnws : ∀ c ∈ raw, c.isWhitespace = false := by
      rcases hshape with hw | ⟨c, rfl, hcw, hcs⟩
      · exact fun c hc => not_whitespace_of_word (hw c hc)
      · intro d hd
        rw [List.mem_singleton] at hd
        exact hd ▸ hcs
    refine ⟨by simpa [hdata] using hne, ?_, ?_, ?_⟩
    · intro c hc
      rw [hdata] at hc
      obtain ⟨d, _, rfl⟩ := List.mem_map.mp hc
      exact isUpper_toLower d
    · intro c hc
      rw [hdata] at hc
      obtain ⟨d, hd, rfl⟩ := List.mem_map.mp hc
      rw [isWhitespace_toLower]
      exact hnws d hd
    · rcases hshape with hw | ⟨c, rfl, hcw, _⟩
      · refine Or.inl fun c hc => ?_
        rw [hdata] at hc
        obtain ⟨d, hd, rfl⟩ := List.mem_map.mp hc
        rw [isWordChar_toLower]
        exact hw d hd
      · exact Or.inr ⟨Char.toLower c, by simp [hdata], by rw [isWordChar_toLower]; exact hcw⟩

/-- Witness for C2 at a concrete token of the concrete scenario. -/
theorem tokenize_sql_spec_w :
    ("select" ∈ tokenize_sql (some "SELECT a FROM t WHERE a>=1"))
    ∧ ("select" : String).data ≠ [] :=
  ⟨by decide, (tokenize_sql_spec.2 "SELECT a FROM t WHERE a>=1" "select" (by decide)).1⟩

/-! ## Matcher lemmas -/

theorem compareAux_matched (genHas : String → Bool) :
    ∀ (ref : List String) (res : List (String × Bool)) (m : Nat),
      (compareAux genHas ref res m).2 = m + (ref.filter genHas).length := by
  intro ref
  induction ref with
  | nil => intro res m; simp [compareAux]
  | cons t rest ih =>
    intro res m
    rw [compareAux]
    simp only [List.filter_cons]
    by_cases h : genHas t
    · simp only [h, if_pos, if_true]
      rw [ih]
      simp
      omega
    · simp only [h, if_neg, if_false, Bool.false_eq_true]
      rw [ih]

theorem dictInsert_ne_nil (m : List (String × Bool)) (k : String) (v : Bool) :
    dictInsert m k v ≠ [] := by
  rw [dictInsert]
  split
  · rename_i h
    rcases m with _ | ⟨p, m⟩
    · simp at h
    · simp
  · simp

theorem compareAux_fst_ne_nil (genHas : String → Bool) :
    ∀ (ref : List String) (res : List (String × Bool)) (m : Nat),
      res ≠ [] ∨ ref ≠ [] → (compareAux genHas ref res m).1 ≠ [] := by
  intro ref
  induction ref with
  | nil =>
    intro res m h
    rcases h with h | h
    · exact h
    · simp at h
  | cons t rest ih =>
    intro res m _
    rw [compareAux]
    exact ih _ _ (Or.inl (dictInsert_ne_nil res t (genHas t)))

theorem dictInsert_all_true {m : List (String × Bool)} {k : String}
    (hm : ∀ p ∈ m, p.2 = true) : ∀ p ∈ dictInsert m k true, p.2 = true := by
  intro p hp
  rw [dictInsert] at hp
  split at hp
  · obtain ⟨q, hq, hqp⟩ := List.mem_map.mp hp
    by_cases h : q.1 == k
    · rw [if_pos h] at hqp
      exact hqp ▸ rfl
    · rw [if_neg h] at hqp
      exact hqp ▸ hm q hq
  · rcases List.mem_append.mp hp with h | h
    · exact hm p h
    · rw [List.mem_singleton] at h
      exact h ▸ rfl

theorem compareAux_all_true (genHas : String → Bool) :
    ∀ (ref : List String) (res : List (String × Bool)) (m : Nat),
      (∀ p ∈ res, p.2 = true) → (∀ t ∈ ref, genHas t = true) →
      ∀ p ∈ (compareAux genHas ref res m).1, p.2 = true := by
  intro ref
  induction ref with
  | nil => intro res m hres _ p hp; exact hres p hp
  | cons t rest ih =>
    intro res m hres hall p hp
    rw [compareAux] at hp
    have ht : genHas t = true := hall t (List.mem_cons_self t rest)
    refine ih _ _ ?_ (fun u hu => hall u (List.mem_cons_of_mem t hu)) p hp
    rw [ht]
    exact dictInsert_all_true hres

theorem dictInsert_mem_stable {m : List (String × Bool)} {t k : String} {v : Bool}
    (h : (t, false) ∈ m) (hkv : k = t → v = false) : (t, false) ∈ dictInsert m k v := by
  rw [dictInsert]
  split
  · refine List.mem_map.mpr ⟨(t, false), h, ?_⟩
    by_cases he : t == k
    · have : k = t := (eq_of_beq he).symm
      simp [he, this, hkv this]
    · simp [he]
  · exact List.mem_append.mpr (Or.inl h)

theorem dictInsert_mem_new (m : List (String × Bool)) (k : String) (v : Bool) :
    (k, v) ∈ dictInsert m k v := by
  rw [dictInsert]
  split
  · rename_i h
    obtain ⟨p, hp, hpk⟩ := List.any_eq_true.mp h
    refine List.mem_map.mpr ⟨p, hp, ?_⟩
    rw [if_pos hpk]
  · exact List.mem_append.mpr (Or.inr (List.mem_singleton.mpr rfl))

theorem compareAux_mem_false (genHas : String → Bool) :
    ∀ (ref : List String) (res : List (String × Bool)) (m : Nat) (t : String),
      genHas t = false → ((t, false) ∈ res ∨ t ∈ ref) →
      (t, false) ∈ (compareAux genHas ref res m).1 := by
  intro ref
  induction ref with
  | nil =>
    intro res m t _ h
    rcases h with h | h
    · exact h
    · simp at h
  | cons u rest ih =>
    intro res m t ht h
    rw [compareAux]
    rcases h with h | h
    · exact ih _ _ t ht (Or.inl (dictInsert_mem_stable h (fun hut => by rw [hut, ht])))
    · rcases List.mem_cons.mp h with rfl | h
      · have : (t, false) ∈ dictInsert res t (genHas t) := by
          rw [ht]; exact dictInsert_mem_new res t false
        exact ih _ _ t ht (Or.inl this)
      · exact ih _ _ t ht (Or.inr h)

/-! ## Percentage arithmetic -/

theorem pct_bounds {m t : Nat} (hle : m ≤ t) (h0 : 0 < t) :
    0 ≤ (m : ℚ) / (t : ℚ) * 100 ∧ (m : ℚ) / (t : ℚ) * 100 ≤ 100 := by
  have ht : (0 : ℚ) < t := by exact_mod_cast h0
  constructor
  · positivity
  · have hm : (m : ℚ) ≤ t := by exact_mod_cast hle
    rw [div_mul_eq_mul_div, div_le_iff₀ ht]
    nlinarith

theorem pct_eq_100_iff {m t : Nat} (h0 : 0 < t) :
    (m : ℚ) / (t : ℚ) * 100 = 100 ↔ m = t := by
  have ht : (t : ℚ) ≠ 0 := Nat.cast_ne_zero.mpr (by omega)
  rw [div_mul_eq_mul_div, div_eq_iff ht]
  constructor
  · intro h
    have : (m : ℚ) = t := by linarith
    exact_mod_cast this
  · intro h
    subst h
    ring

/-- The two projections of `compare_components`, spelled out. -/
theorem compare_components_fst (ref gen : List String) :
    (compare_components ref gen).1 =
      if 0 < ref.length then
        (((compareAux (fun t => gen.contains t) ref [] 0).2 : ℚ)) / (ref.length : ℚ) * 100
      else 0 := rfl

theorem compare_components_snd (ref gen : List String) :
    (compare_components ref gen).2 = (compareAux (fun t => gen.contains t) ref [] 0).1 := rfl

/-- C3: the match percentage always lies in [0, 100], and an empty reference
sequence yields percentage 0 (guarded division, never 100). -/
theorem match_percentage_bounds (ref gen : List String) :
    0 ≤ (compare_components ref gen).1 ∧ (compare_components ref gen).1 ≤ 100
    ∧ (ref = [] → (compare_components ref gen).1 = 0) := by
  rw [compare_components_fst]
  by_cases h : 0 < ref.length
  · rw [if_pos h]
    have hm := compareAux_matched (fun t => gen.contains t) ref [] 0
    rw [hm]
    have hle : 0 + (ref.filter (fun t => gen.contains t)).length ≤ ref.length := by
      have := List.length_filter_le (fun t => gen.contains t) ref
      omega
    refine ⟨(pct_bounds hle h).1, (pct_bounds hle h).2, fun he => ?_⟩
    subst he
    simp at h
  · rw [if_neg h]
    norm_num

/-- Witness for C3 at a concrete input with an empty reference. -/
theorem match_percentage_bounds_w :
    0 ≤ (compare_components [] ["a"]).1 ∧ (compare_components [] ["a"]).1 ≤ 100
    ∧ ([] = ([] : List String) → (compare_components [] ["a"]).1 = 0) :=
  match_percentage_bounds [] ["a"]

/-- C4: a non-empty reference all of whose tokens occur in the generated
sequence yields percentage exactly 100 and an exact match (every presence value
true, over a non-empty presence map). -/
theorem full_containment_match (ref gen : List String) (h1 : ref ≠ [])
    (h2 : ∀ t ∈ ref, t ∈ gen) :
    (compare_components ref gen).1 = 100
    ∧ (compare_components ref gen).2.all (fun p => p.2) = true
    ∧ (compare_components ref gen).2 ≠ [] := by
  have hlen : 0 < ref.length := List.length_pos.mpr h1
  have hcont : ∀ t ∈ ref, gen.contains t = true := by
    intro t ht
    simpa using h2 t ht
  refine ⟨?_, ?_, ?_⟩
  · rw [compare_components_fst, if_pos hlen,
      compareAux_matched (fun t => gen.contains t) ref [] 0, pct_eq_100_iff hlen]
    simp only [Nat.zero_add]
    exact List.filter_length_eq_length.mpr hcont
  · rw [compare_components_snd, List.all_eq_true]
    exact compareAux_all_true _ ref [] 0 (by simp) hcont
  · rw [compare_components_snd]
    exact compareAux_fst_ne_nil _ ref [] 0 (Or.inr h1)

/-- Witness for C4 at a concrete fully-contained reference. -/
theorem full_containment_match_w :
    (compare_components ["a"] ["a", "b"]).1 = 100
    ∧ (compare_components ["a"] ["a", "b"]).2.all (fun p => p.2) = true
    ∧ (compare_components ["a"] ["a", "b"]).2 ≠ [] :=
  full_containment_match ["a"] ["a", "b"] (by decide) (by decide)

/-- The matcher only consumes the generated tokens through set membership. -/
theorem compare_components_congr {gen gen' : List String}
    (h : ∀ t : String, gen.contains t = gen'.contains t) (ref : List String) :
    compare_components ref gen = compare_components ref gen' := by
  have he : (fun t => gen.contains t) = (fun t => gen'.contains t) := funext h
  rw [compare_components, compare_components, he]

/-- C5: the match result is invariant under permuting or duplicating generated
tokens (set semantics), but duplicating a reference token can change the
percentage (the denominator counts reference duplicates). -/
theorem gen_set_semantics :
    (∀ (ref gen gen' : List String), List.Perm gen gen' →
        compare_components ref gen = compare_components ref gen')
    ∧ (∀ (ref gen : List String) (t : String), t ∈ gen →
        compare_components ref (t :: gen) = compare_components ref gen)
    ∧ (compare_components ["a", "a", "b"] ["a"]).1 ≠ (compare_components ["a", "b"] ["a"]).1 := by
  refine ⟨?_, ?_, ?_⟩
  · intro ref gen gen' hp
    refine compare_components_congr (fun t => ?_) ref
    simp only [List.contains, List.elem_eq_mem, decide_eq_decide]
    exact hp.mem_iff
  · intro ref gen t ht
    refine compare_components_congr (fun u => ?_) ref
    simp only [List.contains, List.elem_eq_mem, decide_eq_decide, List.mem_cons]
    constructor
    · rintro (rfl | h)
      · exact ht
      · exact h
    · exact Or.inr
  · simp [compare_components, compareAux, dictInsert]
    norm_num

/-- Witness for C5 at a concrete permutation and duplication. -/
theorem gen_set_semantics_w :
    compare_components ["a"] ["x", "y"] = compare_components ["a"] ["y", "x"]
    ∧ compare_components ["a"] ["x", "x"] = compare_components ["a"] ["x"] :=
  ⟨gen_set_semantics.1 ["a"] ["x", "y"] ["y", "x"] (by decide),
    gen_set_semantics.2.1 ["a"] ["x"] "x" (by decide)⟩

/-! ## Row-level lemmas -/

theorem evaluate_sql_row_none {decode : String → Option (List String)} {row : Row}
    (h : resolve_reference decode row.query_toks = none) :
    evaluate_sql_row decode row = Except.error .decodeError := by
  simp only [evaluate_sql_row, h]

theorem evaluate_sql_row_null {decode : String → Option (List String)} {row : Row}
    {toks : List String} (hr : resolve_reference decode row.query_toks = some toks)
    (hg : row.generated_query = none) :
    evaluate_sql_row decode row = Except.ok ⟨0, [], 0⟩ := by
  simp only [evaluate_sql_row, hr, hg]

theorem evaluate_sql_row_some {decode : String → Option (List String)} {row : Row}
    {g : String} {toks : List String} (hg : row.generated_query = some g)
    (hr : resolve_reference decode row.query_toks = some toks) :
    evaluate_sql_row decode row =
      Except.ok ⟨(compare_components toks (tokenize_sql (some g))).1,
        (compare_components toks (tokenize_sql (some g))).2,
        if (compare_components toks (tokenize_sql (some g))).2.all (fun p => p.2) then 1
        else 0⟩ := by
  simp only [evaluate_sql_row, hr, hg]

/-- The exact-match flag condition of a row is equivalent to the percentage
being 100, whenever the reference sequence is non-empty. -/
theorem exact_iff_matched (ref gen : List String) (hne : ref ≠ []) :
    (compare_components ref gen).2.all (fun p => p.2) = true ↔
      (compare_components ref gen).1 = 100 := by
  have hlen : 0 < ref.length := List.length_pos.mpr hne
  rw [compare_components_snd, compare_components_fst, if_pos hlen,
    compareAux_matched _ ref [] 0, pct_eq_100_iff hlen]
  simp only [Nat.zero_add]
  constructor
  · intro hall
    rw [List.filter_length_eq_length]
    intro t ht
    by_contra hc
    have hf : gen.contains t = false := Bool.eq_false_iff.mpr hc
    have hmem := compareAux_mem_false (fun u => gen.contains u) ref [] 0 t hf (Or.inr ht)
    have := List.all_eq_true.mp hall (t, false) hmem
    simp at this
  · intro hfl
    rw [List.filter_length_eq_length] at hfl
    rw [List.all_eq_true]
    exact compareAux_all_true _ ref [] 0 (by simp) hfl

/-- C1 counterexample: a row with a non-null generated query and an empty
reference token sequence produces exact_match 1, not 0 — `all()` over the
empty presence map is vacuously true. -/
theorem empty_reference_exact_match_cex :
    evaluate_sql_row (fun _ => none)
        { generated_query := some "x", query_toks := .toks [] } =
      Except.ok ⟨0, [], 1⟩
    ∧ (1 : Nat) ≠ 0 := by
  constructor
  · simp [evaluate_sql_row, resolve_reference, tokenize_sql, compare_components, compareAux]
  · decide

/-- C1 amended: for every generated token sequence, matching with an empty
reference token sequence yields percentage 0, an empty presence map, and an
exact_match flag that is TRUE (1): the flag is `all(details.values())`, which
is vacuously true on the empty map, with no non-emptiness requirement, so an
empty reference sequence does count as an exact match. -/
theorem empty_reference_exact_match (decode : String → Option (List String)) (row : Row)
    (g : String) (hg : row.generated_query = some g)
    (hr : resolve_reference decode row.query_toks = some []) :
    evaluate_sql_row decode row = Except.ok ⟨0, [], 1⟩ := by
  rw [evaluate_sql_row_some hg hr]
  simp [compare_components, compareAux]

/-- Witness for the amended C1 at a concrete row. -/
theorem empty_reference_exact_match_w :
    ({ generated_query := some "y", query_toks := .toks [] } : Row).generated_query = some "y"
    ∧ resolve_reference (fun _ => none) (TokField.toks []) = some []
    ∧ evaluate_sql_row (fun _ => none)
        { generated_query := some "y", query_toks := .toks [] } = Except.ok ⟨0, [], 1⟩ :=
  ⟨rfl, rfl, empty_reference_exact_match (fun _ => none) _ "y" rfl rfl⟩

/-- C8 counterexample: a row with a null generated query but an undecodable
serialized query_toks field does NOT produce the (0, empty, 0) fallback — the
decoding step runs first and raises, so the claim's "regardless of the content
of query_toks" fails on undecodable content. -/
theorem null_generated_decode_cex :
    evaluate_sql_row (fun _ => none)
        { generated_query := none, query_toks := .str "not a list" } =
      Except.error .decodeError
    ∧ (Except.error EvalError.decodeError : Except EvalError RowResult) ≠
        Except.ok ⟨0, [], 0⟩ := by
  constructor
  · rfl
  · intro h
    cases h

/-- C8 amended: for every row whose generated_query is null and whose
query_toks field resolves to some reference token list (it is already a token
list, or a serialized string that decodes), the row evaluator produces
percentage 0, an empty presence map, and exact_match 0, regardless of the
resolved token content, bypassing the matcher; if the query_toks field fails
to decode, the decoding error preempts this fallback. -/
theorem null_generated_fallback (decode : String → Option (List String)) (row : Row)
    (toks : List String) (hg : row.generated_query = none)
    (hr : resolve_reference decode row.query_toks = some toks) :
    evaluate_sql_row decode row = Except.ok ⟨0, [], 0⟩ :=
  evaluate_sql_row_null hr hg

/-- Witness for the amended C8 at a concrete row with non-trivial tokens. -/
theorem null_generated_fallback_w :
    ({ generated_query := none, query_toks := .toks ["select", "a"] } : Row).generated_query = none
    ∧ resolve_reference (fun _ => none) (TokField.toks ["select", "a"]) = some ["select", "a"]
    ∧ evaluate_sql_row (fun _ => none)
        { generated_query := none, query_toks := .toks ["select", "a"] } = Except.ok ⟨0, [], 0⟩ :=
  ⟨rfl, by decide, null_generated_fallback (fun _ => none) _ ["select", "a"] rfl (by decide)⟩

/-- C9: a row whose serialized query_toks string cannot be decoded makes row
evaluation fail fast with the decoding error — it never yields a row result
(in particular it does not silently substitute an empty reference list). -/
theorem decode_failure_fails_fast (decode : String → Option (List String)) (row : Row)
    (s : String) (h1 : row.query_toks = .str s) (h2 : decode s = none) :
    evaluate_sql_row decode row = Except.error .decodeError
    ∧ ∀ r : RowResult, evaluate_sql_row decode row ≠ Except.ok r := by
  have hres : resolve_reference decode row.query_toks = none := by
    rw [h1]
    simp [resolve_reference, h2]
  refine ⟨evaluate_sql_row_none hres, fun r hc => ?_⟩
  rw [evaluate_sql_row_none hres] at hc
  cases hc

/-- Witness for C9 at a concrete undecodable row. -/
theorem decode_failure_fails_fast_w :
    ({ generated_query := some "q", query_toks := .str "zz" } : Row).query_toks = .str "zz"
    ∧ evaluate_sql_row (fun _ => none)
        { generated_query := some "q", query_toks := .str "zz" } = Except.error .decodeError :=
  ⟨rfl, (decode_failure_fails_fast (fun _ => none) _ "zz" rfl rfl).1⟩

/-- C10: for every row with a non-null generated query and a non-empty
resolved reference token sequence, the exact_match flag is 1 iff the partial
match percentage equals 100. -/
theorem exact_match_iff_hundred (decode : String → Option (List String)) (row : Row)
    (g : String) (toks : List String) (r : RowResult)
    (hg : row.generated_query = some g)
    (hr : resolve_reference decode row.query_toks = some toks)
    (hne : toks ≠ [])
    (he : evaluate_sql_row decode row = Except.ok r) :
    r.exact_match = 1 ↔ r.match_percentage = 100 := by
  rw [evaluate_sql_row_some hg hr] at he
  have hre : r = ⟨(compare_components toks (tokenize_sql (some g))).1,
      (compare_components toks (tokenize_sql (some g))).2,
      if (compare_components toks (tokenize_sql (some g))).2.all (fun p => p.2) then 1
      else 0⟩ := by
    cases he
    rfl
  subst hre
  by_cases hall : (compare_components toks (tokenize_sql (some g))).2.all (fun p => p.2) = true
  · simp only [hall, if_true]
    simpa using (exact_iff_matched toks _ hne).mp hall
  · simp only [hall, if_false]
    constructor
    · intro h
      simp at h
    · intro h
      exact absurd ((exact_iff_matched toks _ hne).mpr h) hall

/-- Witness for C10 at a concrete row. -/
theorem exact_match_iff_hundred_w :
    evaluate_sql_row (fun _ => none)
        { generated_query := some "a b", query_toks := .toks ["a"] } =
      Except.ok ⟨100, [("a", true)], 1⟩
    ∧ ((⟨100, [("a", true)], 1⟩ : RowResult).exact_match = 1 ↔
        (⟨100, [("a", true)], 1⟩ : RowResult).match_percentage = 100) := by
  have hr : resolve_reference (fun _ => none) (TokField.toks ["a"]) = some ["a"] := by decide
  have he := @evaluate_sql_row_some (fun _ => none)
    { generated_query := some "a b", query_toks := .toks ["a"] } "a b" ["a"] rfl hr
  rw [show tokenize_sql (some "a b") = ["a", "b"] from by decide] at he
  have hsnd : (compare_components ["a"] ["a", "b"]).2 = [("a", true)] := by decide
  have hfst : (compare_components ["a"] ["a", "b"]).1 = 100 := by
    rw [compare_components_fst]
    have h1 : (compareAux (fun t => ["a", "b"].contains t) ["a"] [] 0).2 = 1 := by decide
    rw [h1]
    norm_num
  rw [hsnd, hfst] at he
  norm_num at he
  exact ⟨he, exact_match_iff_hundred (fun _ => none) _ "a b" ["a"] _ rfl (by decide) (by decide) he⟩

/-! ## Classifier lemmas -/

theorem boundedAt_isPrefixOf {p : List Char} {prev : Option Char} {s : List Char}
    (h : boundedAt p prev s = true) : p.length ≤ s.length := by
  rw [boundedAt] at h
  simp only [Bool.and_eq_true] at h
  exact (List.isPrefixOf_iff_prefix.mp h.1.1).length_le

/-- A bounded occurrence survives appending text whose first character is
absent or non-word. -/
theorem boundedAt_append_true {p : List Char} {prev : Option Char} {s e : List Char}
    (he : headNonWord e = true) (h : boundedAt p prev s = true) :
    boundedAt p prev (s ++ e) = true := by
  rw [boundedAt] at h ⊢
  simp only [Bool.and_eq_true] at h ⊢
  obtain ⟨⟨hpre, hprev⟩, hafter⟩ := h
  have hple : p.length ≤ s.length := (List.isPrefixOf_iff_prefix.mp hpre).length_le
  refine ⟨⟨?_, hprev⟩, ?_⟩
  · rw [List.isPrefixOf_iff_prefix] at hpre ⊢
    exact hpre.trans (List.prefix_append s e)
  · rw [List.drop_append_of_le_length hple]
    cases hd : s.drop p.length with
    | nil =>
      rw [List.nil_append]
      exact he
    | cons c tl =>
      rw [hd] at hafter
      rw [List.cons_append]
      exact hafter

/-- If the pattern fits inside `s`, a bounded occurrence at the head of
`s ++ e` was already a bounded occurrence at the head of `s`. -/
theorem boundedAt_of_append (p : List Char) (prev : Option Char) (s e : List Char)
    (hfit : p.length ≤ s.length) (h : boundedAt p prev (s ++ e) = true) :
    boundedAt p prev s = true := by
  rw [boundedAt] at h ⊢
  simp only [Bool.and_eq_true] at h ⊢
  obtain ⟨⟨hpre, hprev⟩, hafter⟩ := h
  rw [List.isPrefixOf_iff_prefix] at hpre
  have hpre' : p <+: s := by
    rw [List.prefix_iff_eq_take] at hpre ⊢
    rwa [List.take_append_of_le_length hfit] at hpre
  refine ⟨⟨List.isPrefixOf_iff_prefix.mpr hpre', hprev⟩, ?_⟩
  rw [List.drop_append_of_le_length hfit] at hafter
  cases hd : s.drop p.length with
  | nil => rfl
  | cons c tl =>
    rw [hd, List.cons_append] at hafter
    exact hafter

/-- Appending text with a non-word (or absent) first character never removes
bounded occurrences: every counted position survives. -/
theorem countBounded_le_append (p e : List Char) (he : headNonWord e = true) :
    ∀ (s : List Char) (prev : Option Char),
      countBounded p prev s ≤ countBounded p prev (s ++ e) := by
  intro s
  induction s with
  | nil => intro prev; exact Nat.zero_le _
  | cons c rest ih =>
    intro prev
    rw [List.cons_append, countBounded, countBounded]
    refine Nat.add_le_add ?_ (ih (some c))
    by_cases h : boundedAt p prev (c :: rest) = true
    · rw [if_pos h, if_pos ?_]
      have := boundedAt_append_true he h
      rwa [List.cons_append] at this
    · rw [if_neg h]
      exact Nat.zero_le _

/-- Appending text never removes word starts: the word count of the base text
is preserved position by position. -/
theorem countWords_le_append (e : List Char) :
    ∀ (s : List Char) (prev : Option Char), countWords prev s ≤ countWords prev (s ++ e) := by
  intro s
  induction s with
  | nil => intro prev; exact Nat.zero_le _
  | cons c rest ih =>
    intro prev
    rw [List.cons_append]
    simp only [countWords]
    exact Nat.add_le_add (Nat.le_refl _) (ih (some c))

theorem findBounded_some_le (p : List Char) :
    ∀ (s : List Char) (prev : Option Char) (x : Option Char × List Char),
      findBounded p prev s = some x → p.length ≤ s.length := by
  intro s
  induction s with
  | nil => intro prev x h; rw [findBounded] at h; cases h
  | cons c rest ih =>
    intro prev x h
    rw [findBounded] at h
    split at h
    · rename_i hb
      exact boundedAt_isPrefixOf hb
    · exact Nat.le_trans (ih (some c) x h) (Nat.le_succ _)

/-- The first bounded occurrence is found at the same position after appending
text whose first character is absent or non-word, and the remaining suffix is
extended by the appended text. -/
theorem findBounded_append (p e : List Char) (he : headNonWord e = true) :
    ∀ (s : List Char) (prev pv : Option Char) (r : List Char),
      findBounded p prev s = some (pv, r) →
      findBounded p prev (s ++ e) = some (pv, r ++ e) := by
  intro s
  induction s with
  | nil => intro prev pv r h; rw [findBounded] at h; cases h
  | cons c rest ih =>
    intro prev pv r h
    rw [findBounded] at h
    rw [List.cons_append, findBounded]
    split at h
    · rename_i hb
      have h' := Option.some.inj h
      have hpv : some (p.getLastD c) = pv := congrArg Prod.fst h'
      have hr : (c :: rest).drop p.length = r := congrArg Prod.snd h'
      subst hpv
      subst hr
      have hb' : boundedAt p prev (c :: (rest ++ e)) = true := by
        have := boundedAt_append_true he hb
        rwa [List.cons_append] at this
      rw [if_pos hb']
      have hfit : p.length ≤ (c :: rest).length := boundedAt_isPrefixOf hb
      rw [← List.cons_append, List.drop_append_of_le_length hfit]
    · rename_i hb
      have hfit : p.length ≤ rest.length := findBounded_some_le p rest (some c) (pv, r) h
      rw [if_neg ?_]
      · exact ih (some c) pv r h
      · intro hc
        refine hb (boundedAt_of_append p prev (c :: rest) e (by simpa using Nat.le_succ_of_le hfit) ?_)
        rwa [List.cons_append]

/-- A keyword chain survives appending text whose first character is absent or
non-word. -/
theorem chainFind_append (e : List Char) (he : headNonWord e = true) :
    ∀ (kws : List String) (prev : Option Char) (s : List Char),
      chainFind kws prev s = true → chainFind kws prev (s ++ e) = true := by
  intro kws
  induction kws with
  | nil => intro prev s _; rfl
  | cons kw rest ih =>
    intro prev s h
    rw [chainFind] at h ⊢
    cases hf : findBounded kw.data prev s with
    | none => rw [hf] at h; cases h
    | some x =>
      obtain ⟨pv, r⟩ := x
      rw [hf] at h
      have h' : chainFind rest pv r = true := h
      rw [findBounded_append kw.data e he s prev pv r hf]
      exact ih pv r h' 

theorem hasSubqueryPattern_append {line e : List Char} (he : headNonWord e = true)
    (h : hasSubqueryPattern line = true) : hasSubqueryPattern (line ++ e) = true :=
  chainFind_append e he _ none line h

theorem splitLines_ne_nil (s : List Char) : splitLines s ≠ [] := by
  cases s with
  | nil => simp [splitLines]
  | cons c rest =>
    rw [splitLines]
    split
    · simp
    · cases h : splitLines rest <;> simp

/-- The part of the text before its first newline. -/
def firstLine : List Char → List Char
  | [] => []
  | c :: rest => if c = '\n' then [] else c :: firstLine rest

theorem headNonWord_firstLine {e : List Char} (he : headNonWord e = true) :
    headNonWord (firstLine e) = true := by
  cases e with
  | nil => rfl
  | cons c tl =>
    rw [firstLine]
    by_cases hc : c = '\n'
    · rw [if_pos hc]; rfl
    · rw [if_neg hc]
      exact he

/-- Number of subquery-pattern lines of `l`, with `pre` prepended to the first
line (the running decomposition used to reason about `splitLines` of an
append). -/
def subCountPre (pre l : List Char) : Nat :=
  (((splitLines l).modifyHead (fun x => pre ++ x)).filter hasSubqueryPattern).length

theorem modifyHead_nil_append (L : List (List Char)) :
    L.modifyHead (fun x => [] ++ x) = L := by
  cases L with
  | nil => rfl
  | cons a l => simp

theorem subqueryCount_eq_subCountPre (l : List Char) : subqueryCount l = subCountPre [] l := by
  rw [subqueryCount, subCountPre, modifyHead_nil_append]

theorem subCountPre_nil (pre : List Char) :
    subCountPre pre [] = if hasSubqueryPattern pre then 1 else 0 := by
  rw [subCountPre, splitLines]
  cases hp : hasSubqueryPattern pre <;> simp [List.filter, hp]

theorem subCountPre_newline (pre rest : List Char) :
    subCountPre pre ('\n' :: rest) =
      (if hasSubqueryPattern pre then 1 else 0) + subCountPre [] rest := by
  rw [subCountPre, splitLines, if_pos rfl, List.modifyHead_cons, List.append_nil,
    List.filter_cons, subCountPre, modifyHead_nil_append]
  split
  · simp [Nat.add_comm]
  · simp

theorem subCountPre_cons (pre : List Char) (c : Char) (rest : List Char) (hc : c ≠ '\n') :
    subCountPre pre (c :: rest) = subCountPre (pre ++ [c]) rest := by
  rw [subCountPre, subCountPre, splitLines, if_neg hc]
  cases h : splitLines rest with
  | nil => exact absurd h (splitLines_ne_nil rest)
  | cons L Ls =>
    simp only [List.modifyHead_cons]
    rw [List.append_cons pre c L]

theorem subCountPre_head (e : List Char) :
    ∀ (pre : List Char), ∃ k, subCountPre pre e =
      (if hasSubqueryPattern (pre ++ firstLine e) then 1 else 0) + k := by
  induction e with
  | nil =>
    intro pre
    exact ⟨0, by rw [subCountPre_nil, firstLine, List.append_nil, Nat.add_zero]⟩
  | cons c tl ih =>
    intro pre
    by_cases hc : c = '\n'
    · subst hc
      refine ⟨subCountPre [] tl, ?_⟩
      rw [subCountPre_newline, firstLine, if_pos rfl, List.append_nil]
    · obtain ⟨k, hk⟩ := ih (pre ++ [c])
      refine ⟨k, ?_⟩
      rw [subCountPre_cons pre c tl hc, hk, firstLine, if_neg hc]
      have ha : pre ++ [c] ++ firstLine tl = pre ++ c :: firstLine tl := by simp
      rw [ha]

theorem ind_le_subCountPre (pre e : List Char) (he : headNonWord e = true) :
    (if hasSubqueryPattern pre then 1 else 0) ≤ subCountPre pre e := by
  obtain ⟨k, hk⟩ := subCountPre_head e pre
  rw [hk]
  by_cases hp : hasSubqueryPattern pre = true
  · rw [if_pos hp, if_pos (hasSubqueryPattern_append (headNonWord_firstLine he) hp)]
    exact Nat.le_add_right 1 k
  · rw [if_neg hp]
    exact Nat.zero_le _

theorem subCountPre_le_append (e : List Char) (he : headNonWord e = true) :
    ∀ (l pre : List Char), subCountPre pre l ≤ subCountPre pre (l ++ e) := by
  intro l
  induction l with
  | nil =>
    intro pre
    rw [List.nil_append, subCountPre_nil]
    exact ind_le_subCountPre pre e he
  | cons c rest ih =>
    intro pre
    by_cases hc : c = '\n'
    · subst hc
      rw [List.cons_append, subCountPre_newline, subCountPre_newline]
      exact Nat.add_le_add (Nat.le_refl _) (ih [])
    · rw [List.cons_append, subCountPre_cons pre c rest hc, subCountPre_cons pre c (rest ++ e) hc]
      exact ih (pre ++ [c])

/-- Appending text with a non-word (or absent) first character never loses a
subquery-pattern line. -/
theorem subqueryCount_le_append (l e : List Char) (he : headNonWord e = true) :
    subqueryCount l ≤ subqueryCount (l ++ e) := by
  rw [subqueryCount_eq_subCountPre, subqueryCount_eq_subCountPre]
  exact subCountPre_le_append e he l []

theorem map_sum_le {α : Type} (L : List α) (f g : α → Nat) (h : ∀ a ∈ L, f a ≤ g a) :
    (L.map f).sum ≤ (L.map g).sum := by
  induction L with
  | nil => exact Nat.le_refl 0
  | cons a l ih =>
    simp only [List.map_cons, List.sum_cons]
    exact Nat.add_le_add (h a (List.mem_cons_self a l))
      (ih fun b hb => h b (List.mem_cons_of_mem a hb))

theorem headNonWord_map_toLower {l : List Char} (h : headNonWord l = true) :
    headNonWord (l.map Char.toLower) = true := by
  cases l with
  | nil => rfl
  | cons c tl =>
    simp only [List.map_cons, headNonWord] at h ⊢
    rw [isWordChar_toLower]
    exact h

/-- Appending text whose first character is non-word (or absent) never
decreases the complexity score. -/
theorem complexity_score_mono (q s : String) (h : headNonWord s.data = true) :
    complexity_score q ≤ complexity_score (q ++ s) := by
  simp only [complexity_score, String.data_append, List.map_append]
  have he : headNonWord (s.data.map Char.toLower) = true := headNonWord_map_toLower h
  have hkw : ∀ kw : String, countKeyword kw (q.data.map Char.toLower) ≤
      countKeyword kw (q.data.map Char.toLower ++ s.data.map Char.toLower) := by
    intro kw
    rw [countKeyword, countKeyword]
    exact countBounded_le_append kw.data (s.data.map Char.toLower) he (q.data.map Char.toLower) none
  have h01 := hkw "join"
  have h02 := hkw "where"
  have h03 := hkw "group by"
  have h04 := hkw "order by"
  have h05 := hkw "having"
  have h06 := hkw "union"
  have h07 := hkw "intersect"
  have h08 := hkw "except"
  have h09 := hkw "distinct"
  have h10 := hkw "and"
  have h11 := hkw "or"
  have hagg := map_sum_le aggregateKeywords
    (fun kw => countKeyword kw (q.data.map Char.toLower))
    (fun kw => countKeyword kw (q.data.map Char.toLower ++ s.data.map Char.toLower))
    (fun a _ => hkw a)
  have hadv := map_sum_le advancedKeywords
    (fun kw => countKeyword kw (q.data.map Char.toLower))
    (fun kw => countKeyword kw (q.data.map Char.toLower ++ s.data.map Char.toLower))
    (fun a _ => hkw a)
  have hsub := subqueryCount_le_append (q.data.map Char.toLower) (s.data.map Char.toLower) he
  have hwords := countWords_le_append (s.data.map Char.toLower) (q.data.map Char.toLower) none
  have hdiv : countWords none (q.data.map Char.toLower) / 50 ≤
      countWords none (q.data.map Char.toLower ++ s.data.map Char.toLower) / 50 :=
    Nat.div_le_div_right hwords
  omega

/-- The tier rank is monotone in the complexity score. -/
theorem tierVal_categorize_mono {q q' : String}
    (h : complexity_score q ≤ complexity_score q') :
    tierVal (categorize_query q) ≤ tierVal (categorize_query q') := by
  rw [categorize_query, categorize_query]
  split_ifs <;> simp [tierVal] <;> omega

/-- C6: the classifier computes an additive integer score from
case-insensitive word-boundary occurrence counts with the documented weights
(join/union/intersect/except 2, the other clauses, aggregates, advanced
functions and logical operators 1, the nested select-from-where-select-from
pattern 3, plus the word count floor-divided by 50), assigns tiers by the
fixed thresholds (≤ 3 Easy, 4–7 Medium, > 7 Hard), and the concrete query
"SELECT a FROM t" scores 0 and is Easy. -/
theorem categorize_query_spec :
    (∀ q : String, complexity_score q =
        2 * countKeyword "join" (q.data.map Char.toLower)
        + countKeyword "where" (q.data.map Char.toLower)
        + countKeyword "group by" (q.data.map Char.toLower)
        + countKeyword "order by" (q.data.map Char.toLower)
        + countKeyword "having" (q.data.map Char.toLower)
        + 2 * countKeyword "union" (q.data.map Char.toLower)
        + 2 * countKeyword "intersect" (q.data.map Char.toLower)
        + 2 * countKeyword "except" (q.data.map Char.toLower)
        + countKeyword "distinct" (q.data.map Char.toLower)
        + (countKeyword "avg" (q.data.map Char.toLower)
            + countKeyword "count" (q.data.map Char.toLower)
            + countKeyword "min" (q.data.map Char.toLower)
            + countKeyword "max" (q.data.map Char.toLower)
            + countKeyword "sum" (q.data.map Char.toLower)
            + countKeyword "variance" (q.data.map Char.toLower)
            + countKeyword "stddev" (q.data.map Char.toLower))
        + 3 * subqueryCount (q.data.map Char.toLower)
        + (countKeyword "case" (q.data.map Char.toLower)
            + countKeyword "cast" (q.data.map Char.toLower)
            + countKeyword "coalesce" (q.data.map Char.toLower)
            + countKeyword "decode" (q.data.map Char.toLower)
            + countKeyword "rank" (q.data.map Char.toLower)
            + countKeyword "dense_rank" (q.data.map Char.toLower)
            + countKeyword "row_number" (q.data.map Char.toLower)
            + countKeyword "ntile" (q.data.map Char.toLower))
        + countWords none (q.data.map Char.toLower) / 50
        + (countKeyword "and" (q.data.map Char.toLower)
            + countKeyword "or" (q.data.map Char.toLower)))
    ∧ (∀ q : String,
        (categorize_query q = Tier.Easy ↔ complexity_score q ≤ 3)
        ∧ (categorize_query q = Tier.Medium ↔
            4 ≤ complexity_score q ∧ complexity_score q ≤ 7)
        ∧ (categorize_query q = Tier.Hard ↔ 7 < complexity_score q))
    ∧ complexity_score "SELECT a FROM t" = 0
    ∧ categorize_query "SELECT a FROM t" = Tier.Easy := by
  refine ⟨?_, ?_, by decide, by decide⟩
  · intro q
    simp only [complexity_score, aggregateKeywords, advancedKeywords, List.map_cons,
      List.map_nil, List.sum_cons, List.sum_nil]
    ring
  · intro q
    have hthm : categorize_query q =
        (if complexity_score q ≤ 3 then Tier.Easy
         else if complexity_score q ≤ 7 then Tier.Medium else Tier.Hard) := rfl
    by_cases h3 : complexity_score q ≤ 3
    · rw [hthm, if_pos h3]
      exact ⟨⟨fun _ => h3, fun _ => rfl⟩,
        ⟨fun he => Tier.noConfusion he, fun hm => absurd h3 (by omega)⟩,
        ⟨fun he => Tier.noConfusion he, fun hh => absurd h3 (by omega)⟩⟩
    · by_cases h7 : complexity_score q ≤ 7
      · rw [hthm, if_neg h3, if_pos h7]
        exact ⟨⟨fun he => Tier.noConfusion he, fun hl => absurd hl h3⟩,
          ⟨fun _ => ⟨by omega, h7⟩, fun _ => rfl⟩,
          ⟨fun he => Tier.noConfusion he, fun hh => absurd h7 (by omega)⟩⟩
      · rw [hthm, if_neg h3, if_neg h7]
        exact ⟨⟨fun he => Tier.noConfusion he, fun hl => absurd hl h3⟩,
          ⟨fun he => Tier.noConfusion he, fun hm => absurd hm.2 h7⟩,
          ⟨fun _ => by omega, fun _ => rfl⟩⟩

/-- C7 counterexample: appending "x where" — text containing the scoring
pattern `where` — to the base query "union union" merges the trailing `union`
into the non-keyword `unionx`, decreasing the score from 4 to 3 and the tier
from Medium to Easy. -/
theorem append_decreases_score_cex :
    complexity_score ("union union" ++ "x where") < complexity_score "union union"
    ∧ tierVal (categorize_query ("union union" ++ "x where")) <
        tierVal (categorize_query "union union") := by
  constructor
  · decide
  · decide

/-- C7 amended: appending text whose first character is a non-word character
(not alphanumeric or underscore — e.g. the space starting an appended
" JOIN t" clause) never decreases the complexity score, and hence never
decreases the assigned tier; text appended starting with a word character can
merge with a trailing keyword of the base query and decrease both. -/
theorem append_nonword_monotone (q s : String) (h : headNonWord s.data = true) :
    complexity_score q ≤ complexity_score (q ++ s)
    ∧ tierVal (categorize_query q) ≤ tierVal (categorize_query (q ++ s)) :=
  ⟨complexity_score_mono q s h, tierVal_categorize_mono (complexity_score_mono q s h)⟩

/-- Witness for the amended C7 at a concrete base query and appended clause. -/
theorem append_nonword_monotone_w :
    headNonWord (" join t" : String).data = true
    ∧ complexity_score "select x" ≤ complexity_score ("select x" ++ " join t")
    ∧ tierVal (categorize_query "select x") ≤
        tierVal (categorize_query ("select x" ++ " join t")) :=
  ⟨by decide, (append_nonword_monotone "select x" " join t" (by decide)).1,
    (append_nonword_monotone "select x" " join t" (by decide)).2⟩

end NLQEval
